import Mathlib

/-!
Verification of the manga-viewer page-delivery pipeline.

Shallow embedding of the repository's core subsystems:
  * `CacheService.ts`  — persistent byte cache with LRU eviction (IndexedDB
    modelled as association lists; `Blob` modelled by its byte size);
  * `ZipLoader.ts`     — archive backend: image-entry filtering, natural sort,
    empty-document rejection;
  * `usePageLoader.ts` — prefetch scheduling pass and its trigger/completion
    trace semantics;
  * `useStore.ts`      — reading-position store: loadFile / closeFile /
    setPage / setPageUrl / cleanupOldPages, with `localStorage` bookmarks and
    `URL.revokeObjectURL` modelled by a revocation log.

JavaScript's stable comparison sort (`Array.prototype.sort`) is modelled by a
stable insertion sort; `String.prototype.localeCompare` with numeric collation
is modelled by a digit-run-aware lexicographic key; JS numbers that the code
only ever adds, subtracts and compares are modelled by `Nat`/`Int`.
-/

namespace MangaViewer

/-! ### Stable sorting, modelling `Array.prototype.sort(comparator)`

JS `sort` is a stable comparison sort; the comparators used by the repository
(`(a, b) => a.lastAccessed - b.lastAccessed` and
`(a, b) => a.name.localeCompare(b.name, undefined, numeric collation)`)
induce the boolean "less or equal" relations passed here. -/

def orderedInsertBy (le : α → α → Bool) (a : α) : List α → List α
  | [] => [a]
  | b :: l => if le a b then a :: b :: l else b :: orderedInsertBy le a l

def insertionSortBy (le : α → α → Bool) : List α → List α
  | [] => []
  | a :: l => orderedInsertBy le a (insertionSortBy le l)

theorem orderedInsertBy_perm (le : α → α → Bool) (a : α) (l : List α) :
    List.Perm (orderedInsertBy le a l) (a :: l) := by
  induction l with
  | nil => simp [orderedInsertBy]
  | cons b l ih =>
    by_cases h : le a b = true
    · simp [orderedInsertBy, h]
    · simp only [orderedInsertBy, h, if_false, Bool.false_eq_true]
      exact List.Perm.trans (ih.cons b) (List.Perm.swap a b l)

theorem insertionSortBy_perm (le : α → α → Bool) (l : List α) :
    List.Perm (insertionSortBy le l) l := by
  induction l with
  | nil => simp [insertionSortBy]
  | cons a l ih =>
    exact List.Perm.trans (orderedInsertBy_perm le a (insertionSortBy le l)) (ih.cons a)

theorem mem_orderedInsertBy (le : α → α → Bool) (a x : α) (l : List α) :
    x ∈ orderedInsertBy le a l ↔ x = a ∨ x ∈ l := by
  have h := (orderedInsertBy_perm le a l).mem_iff (a := x)
  simpa using h

theorem orderedInsertBy_pairwise (le : α → α → Bool)
    (htot : ∀ a b, le a b = true ∨ le b a = true)
    (htrans : ∀ a b c, le a b = true → le b c = true → le a c = true)
    (a : α) (l : List α) (hl : l.Pairwise (fun x y => le x y = true)) :
    (orderedInsertBy le a l).Pairwise (fun x y => le x y = true) := by
  induction l with
  | nil => simp [orderedInsertBy]
  | cons b l ih =>
    rcases List.pairwise_cons.1 hl with ⟨hb, hl'⟩
    by_cases h : le a b = true
    · simp only [orderedInsertBy, h, if_true]
      refine List.pairwise_cons.2 ⟨?_, hl⟩
      intro x hx
      rcases List.mem_cons.1 hx with rfl | hx
      · exact h
      · exact htrans a b x h (hb x hx)
    · simp only [orderedInsertBy, h, if_false, Bool.false_eq_true]
      refine List.pairwise_cons.2 ⟨?_, ih hl'⟩
      intro x hx
      rcases (mem_orderedInsertBy le a x l).1 hx with rfl | hx
      · rcases htot x b with hxb | hbx
        · exact absurd hxb h
        · exact hbx
      · exact hb x hx

theorem insertionSortBy_pairwise (le : α → α → Bool)
    (htot : ∀ a b, le a b = true ∨ le b a = true)
    (htrans : ∀ a b c, le a b = true → le b c = true → le a c = true)
    (l : List α) :
    (insertionSortBy le l).Pairwise (fun x y => le x y = true) := by
  induction l with
  | nil => simp [insertionSortBy]
  | cons a l ih => exact orderedInsertBy_pairwise le htot htrans a _ ih

/-! ### Lexicographic comparison of numeric key lists

`lexLe` is the ≤ of the lexicographic order on `List Nat`; it is the backbone
of the natural (numeric-aware) filename comparison below. -/

def lexLe : List Nat → List Nat → Bool
  | [], _ => true
  | _ :: _, [] => false
  | a :: as, b :: bs => if a < b then true else if b < a then false else lexLe as bs

theorem lexLe_total : ∀ x y : List Nat, lexLe x y = true ∨ lexLe y x = true := by
  intro x
  induction x with
  | nil => intro y; left; simp [lexLe]
  | cons a as ih =>
    intro y
    cases y with
    | nil => right; simp [lexLe]
    | cons b bs =>
      rcases Nat.lt_trichotomy a b with h | h | h
      · left; simp [lexLe, h]
      · subst h
        have hlt : ¬ a < a := by omega
        simp only [lexLe, if_neg hlt]
        exact ih bs
      · right; simp [lexLe, h]

theorem lexLe_trans : ∀ x y z : List Nat,
    lexLe x y = true → lexLe y z = true → lexLe x z = true := by
  intro x
  induction x with
  | nil => intro y z _ _; simp [lexLe]
  | cons a as ih =>
    intro y z hxy hyz
    cases y with
    | nil => simp [lexLe] at hxy
    | cons b bs =>
      cases z with
      | nil => simp [lexLe] at hyz
      | cons c cs =>
        rcases Nat.lt_trichotomy a b with h1 | h1 | h1
        · rcases Nat.lt_trichotomy b c with h2 | h2 | h2
          · have hac : a < c := by omega
            simp [lexLe, hac]
          · subst h2; simp [lexLe, h1]
          · exfalso
            simp only [lexLe, if_neg (by omega : ¬ b < c), if_pos h2] at hyz
            exact Bool.false_ne_true hyz
        · subst h1
          have hlt : ¬ a < a := by omega
          simp only [lexLe, if_neg hlt] at hxy
          rcases Nat.lt_trichotomy a c with h2 | h2 | h2
          · simp [lexLe, h2]
          · subst h2
            simp only [lexLe, if_neg hlt] at hyz ⊢
            exact ih bs cs hxy hyz
          · exfalso
            simp only [lexLe, if_neg (by omega : ¬ a < c), if_pos h2] at hyz
            exact Bool.false_ne_true hyz
        · exfalso
          simp only [lexLe, if_neg (by omega : ¬ a < b), if_pos h1] at hxy
          exact Bool.false_ne_true hxy

/-! ### `CacheService.ts` — persistent byte cache

The IndexedDB key-value store (`idb-keyval`'s `get`/`set`/`del`) is modelled
by an association list from file id to stored blob size (the payload key
`file:{fileId}` is identified with its `fileId`); the metadata record
`__cache_meta__` is the `files` list.  `Blob`s are modelled by their byte
size (`blob.size` is the only attribute the service reads), and
`Date.now()` timestamps are passed in explicitly. -/

structure CachedFileMeta where
  fileId : String
  fileName : String
  totalSize : Nat
  lastAccessed : Nat
deriving DecidableEq, Repr

/-- Source `const CACHE_LIMIT_BYTES = 500 * 1024 * 1024` — the 500 MiB ceiling. -/
def CACHE_LIMIT_BYTES : Nat := 500 * 1024 * 1024

structure CacheState where
  files : List CachedFileMeta
  blobs : List (String × Nat)
deriving DecidableEq, Repr

/-- Source `meta.files.reduce((sum, f) => sum + f.totalSize, 0)`. -/
def currentTotal (files : List CachedFileMeta) : Nat :=
  files.foldl (fun sum f => sum + f.totalSize) 0

/-- Recursive form of the same sum, convenient in proofs. -/
def sumTotal (files : List CachedFileMeta) : Nat := (files.map (·.totalSize)).sum

/-- The ≤ induced by the comparator `(a, b) => a.lastAccessed - b.lastAccessed`. -/
def lastAccessedLe (a b : CachedFileMeta) : Bool := decide (a.lastAccessed ≤ b.lastAccessed)

/-- Source `[...meta.files].sort((a, b) => a.lastAccessed - b.lastAccessed)` — ascending,
oldest first; JS `sort` is stable. -/
def sortByLastAccessed (files : List CachedFileMeta) : List CachedFileMeta :=
  insertionSortBy lastAccessedLe files

/-- The entries deleted by `evictIfNeeded`'s loop: walk the sorted list
accumulating `freed`, stopping at the first entry where `freed >= needed`. -/
def evictListAux : List CachedFileMeta → Nat → Nat → List CachedFileMeta
  | [], _, _ => []
  | f :: rest, freed, needed =>
    if needed ≤ freed then [] else f :: evictListAux rest (freed + f.totalSize) needed

/-- Source `meta.files.findIndex(f => f.fileId === file.fileId)` followed by
`splice(idx, 1)`: removes the first metadata record with the given id. -/
def removeFirstByFileId : List CachedFileMeta → String → List CachedFileMeta
  | [], _ => []
  | f :: rest, fid => if f.fileId = fid then rest else f :: removeFirstByFileId rest fid

/-- Source `del(fileKey(fileId))` on the payload store. -/
def delBlob (blobs : List (String × Nat)) (fid : String) : List (String × Nat) :=
  blobs.filter (fun kv => decide (kv.1 ≠ fid))

/-- Source `set(fileKey(fileId), blob)` on the payload store. -/
def setBlob : List (String × Nat) → String → Nat → List (String × Nat)
  | [], fid, size => [(fid, size)]
  | kv :: rest, fid, size =>
    if kv.1 = fid then (fid, size) :: rest else kv :: setBlob rest fid size

/-- Source `get(fileKey(fileId))` on the payload store. -/
def lookupBlob : List (String × Nat) → String → Option Nat
  | [], _ => none
  | kv :: rest, fid => if kv.1 = fid then some kv.2 else lookupBlob rest fid

/-- One iteration of the eviction loop body applied to entry `f`:
`await del(this.fileKey(file.fileId))` plus the `findIndex`/`splice` pair. -/
def evictStep (s : CacheState) (f : CachedFileMeta) : CacheState :=
  { files := removeFirstByFileId s.files f.fileId, blobs := delBlob s.blobs f.fileId }

/-- Source `CacheService.evictIfNeeded(meta, newFileSize)`: if
`currentTotal + newFileSize <= CACHE_LIMIT_BYTES` do nothing; otherwise delete
files oldest-first (payload and metadata record) until `freed >= needed`. -/
def evictIfNeeded (st : CacheState) (newFileSize : Nat) : CacheState :=
  let ct := currentTotal st.files
  if ct + newFileSize ≤ CACHE_LIMIT_BYTES then st
  else
    let sorted := sortByLastAccessed st.files
    let needed := ct + newFileSize - CACHE_LIMIT_BYTES
    let evicted := evictListAux sorted 0 needed
    evicted.foldl evictStep st

/-- The existing-entry branch of `saveFile`: `meta.files.find(...)` returns the
first record with the id, which is then mutated in place
(`existing.lastAccessed = Date.now(); existing.totalSize = estimatedSize`). -/
def updateFirstByFileId : List CachedFileMeta → String → Nat → Nat → List CachedFileMeta
  | [], _, _, _ => []
  | f :: rest, fid, size, now =>
    if f.fileId = fid then { f with totalSize := size, lastAccessed := now } :: rest
    else f :: updateFirstByFileId rest fid size now

/-- Source `CacheService.saveFile(fileId, fileName, blob)`.  Refuses a blob larger than
the ceiling; refreshes size and timestamp of an existing entry (no eviction on
this path); otherwise evicts as needed and appends the new metadata record,
then writes the payload. -/
def saveFile (st : CacheState) (fileId fileName : String) (blobSize now : Nat) :
    Bool × CacheState :=
  if CACHE_LIMIT_BYTES < blobSize then (false, st)
  else if st.files.any (fun f => decide (f.fileId = fileId)) then
    (true,
      { files := updateFirstByFileId st.files fileId blobSize now,
        blobs := setBlob st.blobs fileId blobSize })
  else
    let st1 := evictIfNeeded st blobSize
    (true,
      { files := st1.files ++ [⟨fileId, fileName, blobSize, now⟩],
        blobs := setBlob st1.blobs fileId blobSize })

@[simp] theorem sumTotal_nil : sumTotal [] = 0 := rfl

@[simp] theorem sumTotal_cons (f : CachedFileMeta) (l : List CachedFileMeta) :
    sumTotal (f :: l) = f.totalSize + sumTotal l := by
  simp [sumTotal]

theorem currentTotal_go (l : List CachedFileMeta) :
    ∀ init : Nat, l.foldl (fun s f => s + f.totalSize) init = init + sumTotal l := by
  induction l with
  | nil => intro init; simp [sumTotal]
  | cons f rest ih => intro init; simp [List.foldl, ih]; omega

theorem currentTotal_eq (l : List CachedFileMeta) : currentTotal l = sumTotal l := by
  simpa using currentTotal_go l 0

theorem sortByLastAccessed_perm (l : List CachedFileMeta) :
    List.Perm (sortByLastAccessed l) l :=
  insertionSortBy_perm _ l

theorem sortByLastAccessed_pairwise (l : List CachedFileMeta) :
    (sortByLastAccessed l).Pairwise (fun a b => a.lastAccessed ≤ b.lastAccessed) := by
  have h := insertionSortBy_pairwise lastAccessedLe
    (by intro a b; simp [lastAccessedLe]; omega)
    (by intro a b c; simp [lastAccessedLe]; omega) l
  exact h.imp (fun hab => by simpa [lastAccessedLe] using hab)

theorem evictListAux_covers :
    ∀ (l : List CachedFileMeta) (freed needed : Nat),
      needed ≤ freed + sumTotal l →
      needed ≤ freed + sumTotal (evictListAux l freed needed) := by
  intro l
  induction l with
  | nil => intro freed needed h; simpa [evictListAux] using h
  | cons f rest ih =>
    intro freed needed h
    by_cases hc : needed ≤ freed
    · simp only [evictListAux, if_pos hc, sumTotal_nil]; omega
    · simp only [evictListAux, if_neg hc, sumTotal_cons]
      have := ih (freed + f.totalSize) needed (by simp only [sumTotal_cons] at h; omega)
      omega

theorem evictListAux_take_lt :
    ∀ (l : List CachedFileMeta) (freed needed k : Nat),
      k < (evictListAux l freed needed).length →
      freed + sumTotal ((evictListAux l freed needed).take k) < needed := by
  intro l
  induction l with
  | nil => intro freed needed k hk; simp [evictListAux] at hk
  | cons f rest ih =>
    intro freed needed k hk
    by_cases hc : needed ≤ freed
    · simp [evictListAux, hc] at hk
    · simp only [evictListAux, if_neg hc] at hk ⊢
      cases k with
      | zero => simpa using by omega
      | succ k =>
        simp only [List.length_cons, Nat.succ_lt_succ_iff] at hk
        have := ih (freed + f.totalSize) needed k hk
        simp only [List.take_succ_cons, sumTotal_cons]
        omega

theorem evictListAux_exhaust_or :
    ∀ (l : List CachedFileMeta) (freed needed : Nat),
      needed ≤ freed + sumTotal (evictListAux l freed needed) ∨
        evictListAux l freed needed = l := by
  intro l
  induction l with
  | nil => intro freed needed; right; simp [evictListAux]
  | cons f rest ih =>
    intro freed needed
    by_cases hc : needed ≤ freed
    · left; simp only [evictListAux, if_pos hc, sumTotal_nil]; omega
    · rcases ih (freed + f.totalSize) needed with h | h
      · left; simp only [evictListAux, if_neg hc, sumTotal_cons]; omega
      · right; simp only [evictListAux, if_neg hc, h]

theorem evictListAux_eq_take :
    ∀ (l : List CachedFileMeta) (freed needed : Nat),
      evictListAux l freed needed = l.take (evictListAux l freed needed).length := by
  intro l
  induction l with
  | nil => intro freed needed; simp [evictListAux]
  | cons f rest ih =>
    intro freed needed
    by_cases hc : needed ≤ freed
    · simp [evictListAux, hc]
    · simp only [evictListAux, if_neg hc, List.length_cons, List.take_succ_cons]
      exact congrArg (f :: ·) (ih (freed + f.totalSize) needed)

theorem evictListAux_sublist (l : List CachedFileMeta) (freed needed : Nat) :
    (evictListAux l freed needed).Sublist l := by
  rw [evictListAux_eq_take l freed needed]
  exact List.take_sublist _ _

theorem removeFirstByFileId_sublist :
    ∀ (l : List CachedFileMeta) (fid : String), (removeFirstByFileId l fid).Sublist l := by
  intro l
  induction l with
  | nil => intro fid; simp [removeFirstByFileId]
  | cons f rest ih =>
    intro fid
    by_cases h : f.fileId = fid
    · simp only [removeFirstByFileId, if_pos h]
      exact List.sublist_cons_self f rest
    · simpa [removeFirstByFileId, h] using (ih fid).cons₂ f

theorem removeFirstByFileId_sumTotal :
    ∀ (l : List CachedFileMeta) (f : CachedFileMeta),
      (l.map (·.fileId)).Nodup → f ∈ l →
      sumTotal (removeFirstByFileId l f.fileId) + f.totalSize = sumTotal l := by
  intro l
  induction l with
  | nil => intro f _ hf; simp at hf
  | cons g rest ih =>
    intro f hnd hf
    rcases List.mem_cons.1 hf with rfl | hf
    · simp [removeFirstByFileId]; omega
    · by_cases h : g.fileId = f.fileId
      · exfalso
        have : f.fileId ∈ rest.map (·.fileId) := List.mem_map_of_mem _ hf
        simp only [List.map_cons, List.nodup_cons] at hnd
        exact hnd.1 (h ▸ this)
      · simp only [removeFirstByFileId, if_neg h, sumTotal_cons]
        have := ih f (by simpa using (List.nodup_cons.1 (by simpa using hnd)).2) hf
        omega

theorem mem_removeFirstByFileId :
    ∀ (l : List CachedFileMeta) (fid : String) (g : CachedFileMeta),
      g ∈ l → g.fileId ≠ fid → g ∈ removeFirstByFileId l fid := by
  intro l
  induction l with
  | nil => intro fid g hg _; simp at hg
  | cons f rest ih =>
    intro fid g hg hne
    rcases List.mem_cons.1 hg with rfl | hg
    · simp [removeFirstByFileId, hne]
    · by_cases h : f.fileId = fid
      · simpa [removeFirstByFileId, h] using hg
      · simp only [removeFirstByFileId, if_neg h]
        exact List.mem_cons.2 (Or.inr (ih fid g hg hne))

theorem removeFirstByFileId_id_not_mem :
    ∀ (l : List CachedFileMeta) (fid : String),
      (l.map (·.fileId)).Nodup →
      ∀ g ∈ removeFirstByFileId l fid, g.fileId ≠ fid := by
  intro l
  induction l with
  | nil => intro fid _ g hg; simp [removeFirstByFileId] at hg
  | cons f rest ih =>
    intro fid hnd g hg
    simp only [List.map_cons, List.nodup_cons] at hnd
    by_cases h : f.fileId = fid
    · simp only [removeFirstByFileId, if_pos h] at hg
      intro hgf
      exact hnd.1 (h ▸ hgf ▸ List.mem_map_of_mem _ hg)
    · simp only [removeFirstByFileId, if_neg h] at hg
      rcases List.mem_cons.1 hg with rfl | hg
      · exact h
      · exact ih fid hnd.2 g hg

theorem delBlob_cons (kv : String × Nat) (rest : List (String × Nat)) (fid : String) :
    delBlob (kv :: rest) fid =
      if kv.1 = fid then delBlob rest fid else kv :: delBlob rest fid := by
  by_cases h : kv.1 = fid <;> simp [delBlob, List.filter_cons, h]

theorem lookupBlob_delBlob_self :
    ∀ (b : List (String × Nat)) (fid : String), lookupBlob (delBlob b fid) fid = none := by
  intro b fid
  induction b with
  | nil => simp [delBlob, lookupBlob]
  | cons kv rest ih =>
    rw [delBlob_cons]
    by_cases h : kv.1 = fid
    · simpa [h] using ih
    · simp [lookupBlob, h, ih]

theorem lookupBlob_delBlob_ne :
    ∀ (b : List (String × Nat)) (fid fid' : String), fid' ≠ fid →
      lookupBlob (delBlob b fid) fid' = lookupBlob b fid' := by
  intro b fid fid' hne
  induction b with
  | nil => simp [delBlob, lookupBlob]
  | cons kv rest ih =>
    rw [delBlob_cons]
    by_cases h : kv.1 = fid
    · have hfid : ¬ fid = fid' := fun he => hne he.symm
      simp [lookupBlob, h, hfid, ih]
    · by_cases h2 : kv.1 = fid'
      · simp [lookupBlob, h, h2, hne]
      · simp [lookupBlob, h, h2, ih]

theorem lookupBlob_setBlob_self :
    ∀ (b : List (String × Nat)) (fid : String) (size : Nat),
      lookupBlob (setBlob b fid size) fid = some size := by
  intro b fid size
  induction b with
  | nil => simp [setBlob, lookupBlob]
  | cons kv rest ih =>
    by_cases h : kv.1 = fid
    · simp [setBlob, lookupBlob, h]
    · simp [setBlob, lookupBlob, h, ih]

theorem lookupBlob_setBlob_ne :
    ∀ (b : List (String × Nat)) (fid fid' : String) (size : Nat), fid' ≠ fid →
      lookupBlob (setBlob b fid size) fid' = lookupBlob b fid' := by
  intro b fid fid' size hne
  have hfid : ¬ fid = fid' := fun he => hne he.symm
  induction b with
  | nil => simp [setBlob, lookupBlob, hfid]
  | cons kv rest ih =>
    by_cases h : kv.1 = fid
    · have hkv : ¬ kv.1 = fid' := by rw [h]; exact hfid
      simp [setBlob, lookupBlob, h, hkv, hfid]
    · by_cases h2 : kv.1 = fid'
      · simp only [setBlob, if_neg h, lookupBlob, if_pos h2]
      · simp only [setBlob, if_neg h, lookupBlob, if_neg h2, ih]

theorem evictFold_spec :
    ∀ (es : List CachedFileMeta) (st : CacheState),
      (st.files.map (·.fileId)).Nodup →
      (∀ f ∈ es, f ∈ st.files) →
      (es.map (·.fileId)).Nodup →
      (sumTotal (List.foldl evictStep st es).files + sumTotal es = sumTotal st.files)
      ∧ ((List.foldl evictStep st es).files.Sublist st.files)
      ∧ (∀ g ∈ st.files, g.fileId ∉ es.map (·.fileId) → g ∈ (List.foldl evictStep st es).files)
      ∧ (∀ g ∈ (List.foldl evictStep st es).files, g.fileId ∉ es.map (·.fileId))
      ∧ (∀ fid ∈ es.map (·.fileId), lookupBlob (List.foldl evictStep st es).blobs fid = none)
      ∧ (∀ fid, fid ∉ es.map (·.fileId) →
          lookupBlob (List.foldl evictStep st es).blobs fid = lookupBlob st.blobs fid) := by
  intro es
  induction es with
  | nil =>
    intro st hnd _ _
    refine ⟨by simp, List.Sublist.refl _, ?_, ?_, ?_, ?_⟩
    · intro g hg _; simpa using hg
    · intro g _; simp
    · intro fid hfid; simp at hfid
    · intro fid _; simp
  | cons f es' ih =>
    intro st hnd hmem hnd'
    have hf_st : f ∈ st.files := hmem f (List.mem_cons_self f es')
    have hnd'_tail : (es'.map (·.fileId)).Nodup := (List.nodup_cons.1 (by simpa using hnd')).2
    have hf_not_tail : f.fileId ∉ es'.map (·.fileId) :=
      (List.nodup_cons.1 (by simpa using hnd')).1
    set st' := evictStep st f with hst'
    have hfiles' : st'.files = removeFirstByFileId st.files f.fileId := rfl
    have hblobs' : st'.blobs = delBlob st.blobs f.fileId := rfl
    have hsub' : st'.files.Sublist st.files := by
      rw [hfiles']; exact removeFirstByFileId_sublist st.files f.fileId
    have hnd_st' : (st'.files.map (·.fileId)).Nodup := (hsub'.map _).nodup hnd
    have hmem' : ∀ g ∈ es', g ∈ st'.files := by
      intro g hg
      have hg_st : g ∈ st.files := hmem g (List.mem_cons.2 (Or.inr hg))
      have hne : g.fileId ≠ f.fileId := by
        intro he
        exact hf_not_tail (he ▸ List.mem_map_of_mem _ hg)
      rw [hfiles']
      exact mem_removeFirstByFileId st.files f.fileId g hg_st hne
    obtain ⟨ih1, ih2, ih3, ih4, ih5, ih6⟩ := ih st' hnd_st' hmem' hnd'_tail
    have hsum : sumTotal st'.files + f.totalSize = sumTotal st.files := by
      rw [hfiles']; exact removeFirstByFileId_sumTotal st.files f hnd hf_st
    have hfold : List.foldl evictStep st (f :: es') = List.foldl evictStep st' es' := rfl
    refine ⟨?_, ?_, ?_, ?_, ?_, ?_⟩
    · rw [hfold, sumTotal_cons]; omega
    · rw [hfold]; exact ih2.trans hsub'
    · intro g hg hgid
      simp only [List.map_cons, List.mem_cons] at hgid
      push_neg at hgid
      have hg' : g ∈ st'.files := by
        rw [hfiles']
        exact mem_removeFirstByFileId st.files f.fileId g hg hgid.1
      rw [hfold]
      exact ih3 g hg' hgid.2
    · intro g hg
      rw [hfold] at hg
      simp only [List.map_cons, List.mem_cons]
      push_neg
      refine ⟨?_, ih4 g hg⟩
      have hg_st' : g ∈ st'.files := ih2.subset hg
      rw [hfiles'] at hg_st'
      exact removeFirstByFileId_id_not_mem st.files f.fileId hnd g hg_st'
    · intro fid hfid
      rw [hfold]
      simp only [List.map_cons, List.mem_cons] at hfid
      rcases hfid with rfl | hfid
      · rw [ih6 f.fileId hf_not_tail, hblobs']
        exact lookupBlob_delBlob_self st.blobs f.fileId
      · exact ih5 fid hfid
    · intro fid hfid
      simp only [List.map_cons, List.mem_cons] at hfid
      push_neg at hfid
      rw [hfold, ih6 fid hfid.2, hblobs']
      exact lookupBlob_delBlob_ne st.blobs f.fileId fid hfid.1

/-- The list of entries deleted by one `evictIfNeeded` run (empty when no
eviction is needed would read the loop zero times; callers pass the over-limit
case). -/
def evictedEntries (st : CacheState) (n : Nat) : List CachedFileMeta :=
  evictListAux (sortByLastAccessed st.files) 0 (currentTotal st.files + n - CACHE_LIMIT_BYTES)

theorem evictIfNeeded_le (st : CacheState) (n : Nat)
    (h : currentTotal st.files + n ≤ CACHE_LIMIT_BYTES) : evictIfNeeded st n = st := by
  simp only [evictIfNeeded, if_pos h]

theorem evictIfNeeded_over (st : CacheState) (n : Nat)
    (h : ¬ currentTotal st.files + n ≤ CACHE_LIMIT_BYTES) :
    evictIfNeeded st n = List.foldl evictStep st (evictedEntries st n) := by
  simp only [evictIfNeeded, evictedEntries, if_neg h]

theorem evictListAux_zero (l : List CachedFileMeta) (freed : Nat) :
    evictListAux l freed 0 = [] := by
  cases l <;> simp [evictListAux]

theorem evictedEntries_mem (st : CacheState) (n : Nat) :
    ∀ f ∈ evictedEntries st n, f ∈ st.files := by
  intro f hf
  exact (sortByLastAccessed_perm st.files).subset
    ((evictListAux_sublist (sortByLastAccessed st.files) 0 _).subset hf)

theorem evictedEntries_nodup (st : CacheState) (n : Nat)
    (hnodup : (st.files.map (·.fileId)).Nodup) :
    ((evictedEntries st n).map (·.fileId)).Nodup := by
  have hsortnd : ((sortByLastAccessed st.files).map (·.fileId)).Nodup :=
    (((sortByLastAccessed_perm st.files).map (·.fileId)).nodup_iff).2 hnodup
  exact (((evictListAux_sublist (sortByLastAccessed st.files) 0 _)).map (·.fileId)).nodup hsortnd

theorem evictedEntries_covers (st : CacheState) (n : Nat) (hn : n ≤ CACHE_LIMIT_BYTES) :
    currentTotal st.files + n - CACHE_LIMIT_BYTES ≤ sumTotal (evictedEntries st n) := by
  have hsum : sumTotal (sortByLastAccessed st.files) = sumTotal st.files := by
    simpa [sumTotal] using (((sortByLastAccessed_perm st.files).map (·.totalSize))).sum_eq
  have h := evictListAux_covers (sortByLastAccessed st.files) 0
    (currentTotal st.files + n - CACHE_LIMIT_BYTES)
    (by rw [hsum, ← currentTotal_eq]; omega)
  simpa [evictedEntries] using h

theorem evictIfNeeded_spec (st : CacheState) (n : Nat)
    (hnodup : (st.files.map (·.fileId)).Nodup)
    (hover : ¬ currentTotal st.files + n ≤ CACHE_LIMIT_BYTES) :
    (sumTotal (evictIfNeeded st n).files + sumTotal (evictedEntries st n) = sumTotal st.files)
    ∧ ((evictIfNeeded st n).files.Sublist st.files)
    ∧ (∀ g ∈ st.files,
        g.fileId ∉ (evictedEntries st n).map (·.fileId) → g ∈ (evictIfNeeded st n).files)
    ∧ (∀ g ∈ (evictIfNeeded st n).files, g.fileId ∉ (evictedEntries st n).map (·.fileId))
    ∧ (∀ fid ∈ (evictedEntries st n).map (·.fileId),
        lookupBlob (evictIfNeeded st n).blobs fid = none)
    ∧ (∀ fid, fid ∉ (evictedEntries st n).map (·.fileId) →
        lookupBlob (evictIfNeeded st n).blobs fid = lookupBlob st.blobs fid) := by
  rw [evictIfNeeded_over st n hover]
  exact evictFold_spec (evictedEntries st n) st hnodup (evictedEntries_mem st n)
    (evictedEntries_nodup st n hnodup)

/-- Source `GoodCache` is the capacity invariant together with uniqueness of file ids
in the metadata record (which holds in every state the service itself
produces, since the insert path is only taken for absent ids). -/
def GoodCache (st : CacheState) : Prop :=
  sumTotal st.files ≤ CACHE_LIMIT_BYTES ∧ (st.files.map (·.fileId)).Nodup

theorem saveFile_not_mem_any (st : CacheState) (fid : String)
    (hfresh : fid ∉ st.files.map (·.fileId)) :
    (st.files.any fun f => decide (f.fileId = fid)) = false := by
  rw [List.any_eq_false]
  intro f hf
  simp only [decide_eq_true_eq]
  intro he
  exact hfresh (he ▸ List.mem_map_of_mem _ hf)

/-- The insert path of `saveFile` restores the capacity bound and extends the
id set by exactly the new id. -/
theorem saveFile_fresh_good (st : CacheState) (fid fname : String) (sz t : Nat)
    (hgood : GoodCache st) (hfresh : fid ∉ st.files.map (·.fileId)) :
    GoodCache (saveFile st fid fname sz t).2
    ∧ (∀ id ∈ (saveFile st fid fname sz t).2.files.map (·.fileId),
        id ∈ st.files.map (·.fileId) ∨ id = fid) := by
  obtain ⟨hcap, hnd⟩ := hgood
  by_cases hsz : CACHE_LIMIT_BYTES < sz
  · simp only [saveFile, if_pos hsz]
    exact ⟨⟨hcap, hnd⟩, fun id hid => Or.inl hid⟩
  · have hany := saveFile_not_mem_any st fid hfresh
    simp only [saveFile, if_neg hsz, hany, Bool.false_eq_true, if_false]
    by_cases hle : currentTotal st.files + sz ≤ CACHE_LIMIT_BYTES
    · rw [evictIfNeeded_le st sz hle]
      constructor
      · constructor
        · simp only [sumTotal, List.map_append, List.sum_append, List.map_cons, List.map_nil,
            List.sum_cons, List.sum_nil]
          rw [currentTotal_eq] at hle
          simp only [sumTotal] at hle ⊢
          omega
        · simp only [List.map_append, List.map_cons, List.map_nil]
          rw [List.nodup_append]
          refine ⟨hnd, List.nodup_singleton fid, ?_⟩
          simp only [List.Disjoint]
          intro id hid hmem
          simp only [List.mem_cons, List.not_mem_nil, or_false] at hmem
          subst hmem
          exact hfresh hid
      · intro id hid
        simp only [List.map_append, List.map_cons, List.map_nil, List.mem_append,
          List.mem_cons, List.not_mem_nil, or_false] at hid
        exact hid
    · obtain ⟨h1, h2, _, _, _, _⟩ := evictIfNeeded_spec st sz hnd hle
      have hcov := evictedEntries_covers st sz (by omega)
      constructor
      · constructor
        · simp only [sumTotal, List.map_append, List.sum_append, List.map_cons, List.map_nil,
            List.sum_cons, List.sum_nil]
          have hct : currentTotal st.files = sumTotal st.files := currentTotal_eq _
          simp only [sumTotal] at h1 hcov hcap hct ⊢
          omega
        · simp only [List.map_append, List.map_cons, List.map_nil]
          rw [List.nodup_append]
          refine ⟨(h2.map (·.fileId)).nodup hnd, List.nodup_singleton fid, ?_⟩
          simp only [List.Disjoint]
          intro id hid hmem
          simp only [List.mem_cons, List.not_mem_nil, or_false] at hmem
          exact hfresh (hmem ▸ (h2.map (·.fileId)).subset hid)
      · intro id hid
        simp only [List.map_append, List.map_cons, List.map_nil, List.mem_append,
          List.mem_cons, List.not_mem_nil, or_false] at hid
        rcases hid with hid | hid
        · exact Or.inl ((h2.map (·.fileId)).subset hid)
        · exact Or.inr hid

/-- One call description for a `saveFile` sequence. -/
structure SaveOp where
  fileId : String
  fileName : String
  size : Nat
  now : Nat
deriving DecidableEq, Repr

def emptyCache : CacheState := ⟨[], []⟩

def runSavesFrom (st : CacheState) (ops : List SaveOp) : CacheState :=
  ops.foldl (fun s op => (saveFile s op.fileId op.fileName op.size op.now).2) st

def runSaves (ops : List SaveOp) : CacheState := runSavesFrom emptyCache ops

theorem runSavesFrom_good :
    ∀ (ops : List SaveOp) (st : CacheState),
      GoodCache st →
      (ops.map SaveOp.fileId).Nodup →
      (∀ id ∈ st.files.map (·.fileId), id ∉ ops.map SaveOp.fileId) →
      GoodCache (runSavesFrom st ops)
      ∧ (∀ id ∈ (runSavesFrom st ops).files.map (·.fileId),
          id ∈ st.files.map (·.fileId) ∨ id ∈ ops.map SaveOp.fileId) := by
  intro ops
  induction ops with
  | nil =>
    intro st hg _ _
    exact ⟨hg, fun id hid => Or.inl hid⟩
  | cons op ops' ih =>
    intro st hg hnd hdisj
    have hfresh : op.fileId ∉ st.files.map (·.fileId) := by
      intro h
      exact hdisj op.fileId h (by simp)
    obtain ⟨hg', hsub⟩ := saveFile_fresh_good st op.fileId op.fileName op.size op.now hg hfresh
    have hnd' : (ops'.map SaveOp.fileId).Nodup := (List.nodup_cons.1 (by simpa using hnd)).2
    have hop_not : op.fileId ∉ ops'.map SaveOp.fileId := (List.nodup_cons.1 (by simpa using hnd)).1
    have hdisj' :
        ∀ id ∈ (saveFile st op.fileId op.fileName op.size op.now).2.files.map (·.fileId),
          id ∉ ops'.map SaveOp.fileId := by
      intro id hid hmem
      rcases hsub id hid with h | rfl
      · exact hdisj id h (by simp [hmem])
      · exact hop_not hmem
    obtain ⟨ihg, ihsub⟩ := ih _ hg' hnd' hdisj'
    have hrun : runSavesFrom st (op :: ops') =
        runSavesFrom (saveFile st op.fileId op.fileName op.size op.now).2 ops' := rfl
    rw [hrun]
    refine ⟨ihg, ?_⟩
    intro id hid
    rcases ihsub id hid with h | h
    · rcases hsub id h with h' | rfl
      · exact Or.inl h'
      · exact Or.inr (by simp)
    · exact Or.inr (by simp [h])

/-- C1 (amended): starting from the empty cache, after every one of a sequence
of `saveFile` calls in which each call inserts a new entry (pairwise-distinct
file ids, so the overwriting branch is never taken), the sum of the stored
entry sizes is at most the 500 MiB ceiling.  The original claim also covered
calls that overwrite an existing entry; those can exceed the ceiling (see the
counterexample), because the existing-entry branch of `saveFile` updates
`totalSize` without running the eviction algorithm. -/
theorem c1_capacity_insert_only (ops : List SaveOp)
    (hnd : (ops.map SaveOp.fileId).Nodup) :
    ∀ k : Nat, currentTotal (runSaves (ops.take k)).files ≤ CACHE_LIMIT_BYTES := by
  intro k
  have hnd' : ((ops.take k).map SaveOp.fileId).Nodup :=
    hnd.sublist ((List.take_sublist k ops).map SaveOp.fileId)
  have hempty : GoodCache emptyCache := ⟨by simp [emptyCache], by simp [emptyCache]⟩
  have h := runSavesFrom_good (ops.take k) emptyCache hempty hnd'
    (by intro id hid; simp [emptyCache] at hid)
  rw [currentTotal_eq]
  exact h.1.1

def c1State1 : CacheState := (saveFile emptyCache ("A") ("A") 1 0).2

def c1State2 : CacheState := (saveFile c1State1 ("B") ("B") (CACHE_LIMIT_BYTES - 1) 1).2

def c1State3 : CacheState := (saveFile c1State2 ("A") ("A") CACHE_LIMIT_BYTES 2).2

/-- C1 (counterexample): cache entries A (1 byte) and B (ceiling − 1 bytes)
total exactly the ceiling; overwriting A with a blob of ceiling size is
admitted (`saveFile` returns true) yet leaves the stored sizes summing to
2·ceiling − 1, strictly above the 500 MiB ceiling. -/
theorem c1_overwrite_counterexample :
    (saveFile c1State2 ("A") ("A") CACHE_LIMIT_BYTES 2).1 = true
    ∧ currentTotal c1State3.files = 2 * CACHE_LIMIT_BYTES - 1
    ∧ CACHE_LIMIT_BYTES < currentTotal c1State3.files := by
  decide

def c1WitnessOps : List SaveOp :=
  [⟨("A"), ("A"), 300 * 1024 * 1024, 0⟩, ⟨("B"), ("B"), 300 * 1024 * 1024, 1⟩]

theorem c1_capacity_insert_only_witness :
    ((c1WitnessOps.map SaveOp.fileId).Nodup)
    ∧ currentTotal (runSaves (c1WitnessOps.take 2)).files ≤ CACHE_LIMIT_BYTES :=
  ⟨by decide, c1_capacity_insert_only c1WitnessOps (by decide) 2⟩

/-- Specification predicate for the insert-path eviction behaviour of
`saveFile`, phrased after the spec's description of the eviction algorithm:
the call is admitted; existing entries, sorted ascending by last-access
timestamp, are deleted from the front of that sorted order; nothing is deleted
when `currentTotal + newSize` fits under the ceiling; the deleted initial
segment frees at least `currentTotal + newSize − ceiling` bytes while every
shorter initial segment frees strictly less (deletion stops as soon as enough
is freed); deletion removes both the metadata record and the byte payload; and
the entry being written is never among those deleted. -/
def SaveEvictionSpec (st : CacheState) (fid fname : String) (sz t : Nat) : Prop :=
  let ct := currentTotal st.files
  let sorted := sortByLastAccessed st.files
  let needed := ct + sz - CACHE_LIMIT_BYTES
  let es := evictedEntries st sz
  let newEntry : CachedFileMeta := ⟨fid, fname, sz, t⟩
  let res := (saveFile st fid fname sz t).2
  (saveFile st fid fname sz t).1 = true
  ∧ List.Perm sorted st.files
  ∧ sorted.Pairwise (fun a b => a.lastAccessed ≤ b.lastAccessed)
  ∧ es = sorted.take es.length
  ∧ (ct + sz ≤ CACHE_LIMIT_BYTES →
      es = [] ∧ res.files = st.files ++ [newEntry] ∧ res.blobs = setBlob st.blobs fid sz)
  ∧ (CACHE_LIMIT_BYTES < ct + sz → needed ≤ sumTotal es)
  ∧ (∀ k, k < es.length → sumTotal (es.take k) < needed)
  ∧ (∀ g, g ∈ res.files ↔ ((g ∈ st.files ∧ g.fileId ∉ es.map (·.fileId)) ∨ g = newEntry))
  ∧ (∀ f ∈ es, lookupBlob res.blobs f.fileId = none)
  ∧ lookupBlob res.blobs fid = some sz
  ∧ fid ∉ es.map (·.fileId)

/-- C2: when `saveFile` inserts a new entry (admissible size, id not yet
cached), the eviction algorithm behaves exactly as specified: no deletion when
`currentTotal + newSize ≤ ceiling`; otherwise entries are deleted oldest
last-access first, payload and metadata both, stopping as soon as the freed
bytes cover `currentTotal + newSize − ceiling`; the entry being written is
never deleted. -/
theorem c2_eviction_algorithm (st : CacheState) (fid fname : String) (sz t : Nat)
    (hnodup : (st.files.map (·.fileId)).Nodup)
    (hfresh : fid ∉ st.files.map (·.fileId))
    (hsz : sz ≤ CACHE_LIMIT_BYTES) :
    SaveEvictionSpec st fid fname sz t := by
  have hany := saveFile_not_mem_any st fid hfresh
  have hnot : ¬ CACHE_LIMIT_BYTES < sz := by omega
  have hsave : saveFile st fid fname sz t =
      (true,
        { files := (evictIfNeeded st sz).files ++ [⟨fid, fname, sz, t⟩],
          blobs := setBlob (evictIfNeeded st sz).blobs fid sz }) := by
    simp only [saveFile, if_neg hnot, hany, Bool.false_eq_true, if_false]
  have hfid_es : ∀ n : Nat, fid ∉ (evictedEntries st n).map (·.fileId) := by
    intro n h
    rcases List.mem_map.1 h with ⟨f, hf, hfid⟩
    exact hfresh (hfid ▸ List.mem_map_of_mem _ (evictedEntries_mem st n f hf))
  simp only [SaveEvictionSpec]
  refine ⟨by rw [hsave], sortByLastAccessed_perm st.files,
    sortByLastAccessed_pairwise st.files, ?_, ?_, ?_, ?_, ?_, ?_, ?_, hfid_es sz⟩
  · simpa only [evictedEntries] using
      evictListAux_eq_take (sortByLastAccessed st.files) 0
        (currentTotal st.files + sz - CACHE_LIMIT_BYTES)
  · intro hle
    have hz : currentTotal st.files + sz - CACHE_LIMIT_BYTES = 0 := by omega
    have hes : evictedEntries st sz = [] := by
      rw [evictedEntries, hz]
      exact evictListAux_zero _ 0
    refine ⟨hes, ?_, ?_⟩
    · rw [hsave]
      simp only
      rw [evictIfNeeded_le st sz hle]
    · rw [hsave]
      simp only
      rw [evictIfNeeded_le st sz hle]
  · intro _
    exact evictedEntries_covers st sz hsz
  · intro k hk
    have h := evictListAux_take_lt (sortByLastAccessed st.files) 0
      (currentTotal st.files + sz - CACHE_LIMIT_BYTES) k (by simpa [evictedEntries] using hk)
    simpa [evictedEntries] using h
  · intro g
    by_cases hle : currentTotal st.files + sz ≤ CACHE_LIMIT_BYTES
    · have hz : currentTotal st.files + sz - CACHE_LIMIT_BYTES = 0 := by omega
      have hes : evictedEntries st sz = [] := by
        rw [evictedEntries, hz]
        exact evictListAux_zero _ 0
      rw [hsave]
      simp only [hes]
      rw [evictIfNeeded_le st sz hle]
      simp [List.mem_append]
    · obtain ⟨_, h2, h3, h4, _, _⟩ := evictIfNeeded_spec st sz hnodup hle
      rw [hsave]
      simp only [List.mem_append, List.mem_cons, List.not_mem_nil, or_false]
      constructor
      · intro hg
        rcases hg with hg | hg
        · exact Or.inl ⟨h2.subset hg, h4 g hg⟩
        · exact Or.inr hg
      · intro hg
        rcases hg with ⟨hg, hgid⟩ | hg
        · exact Or.inl (h3 g hg hgid)
        · exact Or.inr hg
  · intro f hf
    by_cases hle : currentTotal st.files + sz ≤ CACHE_LIMIT_BYTES
    · have hz : currentTotal st.files + sz - CACHE_LIMIT_BYTES = 0 := by omega
      rw [evictedEntries, hz, evictListAux_zero] at hf
      simp at hf
    · obtain ⟨_, _, _, _, h5, _⟩ := evictIfNeeded_spec st sz hnodup hle
      have hne : f.fileId ≠ fid := by
        intro he
        exact hfresh (he ▸ List.mem_map_of_mem _ (evictedEntries_mem st sz f hf))
      rw [hsave]
      simp only
      rw [lookupBlob_setBlob_ne _ fid f.fileId sz hne]
      exact h5 f.fileId (List.mem_map_of_mem _ hf)
  · rw [hsave]
    simp only
    exact lookupBlob_setBlob_self _ fid sz

def c2State : CacheState :=
  ⟨[⟨("A"), ("A"), 300 * 1024 * 1024, 5⟩, ⟨("B"), ("B"), 150 * 1024 * 1024, 3⟩],
   [(("A"), 300 * 1024 * 1024), (("B"), 150 * 1024 * 1024)]⟩

theorem c2_eviction_algorithm_witness :
    ((c2State.files.map (·.fileId)).Nodup
      ∧ ("C") ∉ c2State.files.map (·.fileId)
      ∧ 200 * 1024 * 1024 ≤ CACHE_LIMIT_BYTES)
    ∧ SaveEvictionSpec c2State ("C") ("C") (200 * 1024 * 1024) 9 :=
  ⟨⟨by decide, by decide, by decide⟩,
    c2_eviction_algorithm c2State ("C") ("C") (200 * 1024 * 1024) 9
      (by decide) (by decide) (by decide)⟩

/-! ### `ZipLoader.ts` — archive backend

A JSZip entry is modelled by its name and directory flag (the only attributes
`loadFile` inspects); the entry's compressed payload plays no role in the
properties below.  The regex test `/\.(jpg|jpeg|png|gif|webp)$/i.test(name)`
is modelled as a case-folded suffix check, and
`a.name.localeCompare(b.name, undefined, { numeric, base sensitivity })`
is modelled by `natLe`: names are case-folded and split into maximal digit
runs (compared by numeric value, collating before other characters) and
single other characters, compared lexicographically. -/

structure ZipEntry where
  name : String
  dir : Bool
deriving DecidableEq, Repr

/-- The `MangaFile` record of `types/index.ts`. -/
structure MangaFile where
  fileName : String
  totalPages : Nat
  pages : List String
deriving DecidableEq, Repr

def foldChar (c : Char) : Nat := c.toLower.toNat

/-- Collation key builder: walks the characters, accumulating the value of the
current digit run in `acc`; a digit run is emitted as the two keys `0, value`
(digits collate before other characters), any other character as
`1, foldChar c`. -/
def tokenKeyGo : List Char → Option Nat → List Nat
  | [], none => []
  | [], some v => [0, v]
  | c :: rest, acc =>
    if c.isDigit then tokenKeyGo rest (some ((acc.getD 0) * 10 + (c.toNat - 48)))
    else
      match acc with
      | some v => 0 :: v :: 1 :: foldChar c :: tokenKeyGo rest none
      | none => 1 :: foldChar c :: tokenKeyGo rest none

def stringKey (s : String) : List Nat := tokenKeyGo s.toList none

/-- Natural (numeric-aware, case-insensitive) "less or equal" on names. -/
def natLe (a b : String) : Bool := lexLe (stringKey a) (stringKey b)

def zipNameLe (a b : ZipEntry) : Bool := natLe a.name b.name

/-- Source regex `/\.(jpg|jpeg|png|gif|webp)$/i.test(entry.name)`. -/
def hasImageExt (name : String) : Bool :=
  [(".jpg"), (".jpeg"), (".png"), (".gif"), (".webp")].any
    (fun ext => ext.toList.isSuffixOf (name.toList.map Char.toLower))

/-- Source predicate `!entry.dir && regex test` — the filter predicate of `ZipLoader.loadFile`. -/
def isImageEntry (e : ZipEntry) : Bool := !e.dir && hasImageExt e.name

/-- Source `ZipLoader.loadFile`: filter image entries, sort naturally, reject an
archive with zero qualifying entries, otherwise report page count and the
ordered entry names.  The thrown `Error` is modelled as `Except.error` of its
message; `fileName` stands for `(file as File).name`. -/
def zipLoadFile (entries : List ZipEntry) (fileName : String) : Except String MangaFile :=
  let imageEntries := insertionSortBy zipNameLe (entries.filter isImageEntry)
  if imageEntries.length = 0 then Except.error ("No images found in the archive.")
  else Except.ok ⟨fileName, imageEntries.length, imageEntries.map (·.name)⟩

theorem zipNameLe_total : ∀ a b : ZipEntry, zipNameLe a b = true ∨ zipNameLe b a = true := by
  intro a b
  exact lexLe_total (stringKey a.name) (stringKey b.name)

theorem zipNameLe_trans : ∀ a b c : ZipEntry,
    zipNameLe a b = true → zipNameLe b c = true → zipNameLe a c = true := by
  intro a b c
  exact lexLe_trans (stringKey a.name) (stringKey b.name) (stringKey c.name)

/-- C3: for every archive, `loadFile` keeps exactly the non-directory entries
with a recognized image extension, orders them by the natural numeric-aware
comparison, reports their count as the page count, and rejects with the
empty-document error exactly when no qualifying entry remains; on the concrete
archive `["2.jpg", "10.jpg", "1.jpg"]` the pages decode in the order
`1.jpg, 2.jpg, 10.jpg`. -/
theorem c3_archive_load :
    (∀ (entries : List ZipEntry) (fn : String),
      match zipLoadFile entries fn with
      | .error msg =>
          entries.filter isImageEntry = [] ∧ msg = ("No images found in the archive.")
      | .ok mf =>
          entries.filter isImageEntry ≠ []
          ∧ mf.fileName = fn
          ∧ mf.totalPages = (entries.filter isImageEntry).length
          ∧ mf.totalPages = mf.pages.length
          ∧ List.Perm mf.pages ((entries.filter isImageEntry).map (·.name))
          ∧ mf.pages.Pairwise (fun a b => natLe a b = true))
    ∧ (zipLoadFile
        [⟨("2.jpg"), false⟩, ⟨("10.jpg"), false⟩, ⟨("1.jpg"), false⟩] ("x")).toOption
        = some ⟨("x"), 3, [("1.jpg"), ("2.jpg"), ("10.jpg")]⟩ := by
  constructor
  · intro entries fn
    have hperm := insertionSortBy_perm zipNameLe (entries.filter isImageEntry)
    by_cases h : (insertionSortBy zipNameLe (entries.filter isImageEntry)).length = 0
    · have hsorted : insertionSortBy zipNameLe (entries.filter isImageEntry) = [] :=
        List.length_eq_zero.1 h
      have hfilter : entries.filter isImageEntry = [] := by
        rw [hsorted] at hperm
        exact hperm.symm.eq_nil
      have hred : zipLoadFile entries fn = Except.error ("No images found in the archive.") := by
        simp only [zipLoadFile, if_pos h]
      rw [hred]
      exact ⟨hfilter, rfl⟩
    · have hred : zipLoadFile entries fn =
          Except.ok
            ⟨fn, (insertionSortBy zipNameLe (entries.filter isImageEntry)).length,
              (insertionSortBy zipNameLe (entries.filter isImageEntry)).map (·.name)⟩ := by
        simp only [zipLoadFile, if_neg h]
      rw [hred]
      refine ⟨?_, rfl, hperm.length_eq, by simp, hperm.map (·.name), ?_⟩
      · intro hf
        rw [hf] at h
        exact h (by simp [insertionSortBy])
      · have hpw := insertionSortBy_pairwise zipNameLe zipNameLe_total zipNameLe_trans
          (entries.filter isImageEntry)
        rw [List.pairwise_map]
        exact hpw.imp (fun hab => hab)
  · decide

/-! ### `usePageLoader.ts` — prefetch scheduling

One run of the hook's effect is modelled as one `trigger` event: it snapshots
the resolved map (`pageUrls` captured by the effect closure), calls `loadPage`
for the current index and each offset `1..prefetchRange` in both directions,
and finally `cleanupOldPages(currentPageIndex, cleanupDistance)`.  A call to
`loadPage(index)` returns early when the index is out of bounds or the
snapshot already holds a (truthy) URL for it; otherwise it starts an awaited
decode, modelled by appending the index to `pending` and to the decode-call
log `calls`.  A decode finishing later is a separate `complete`/`fail` event:
on success `setPageUrl` records the URL (key insertion), on failure the error
is logged and dropped.  There is no in-flight bookkeeping in the source. -/

inductive ViewMode
  | horizontal
  | vertical
deriving DecidableEq, Repr

def BASE_PREFETCH_RANGE : Nat := 2

def BASE_CLEANUP_DISTANCE : Nat := 5

/-- Source `viewMode === 'vertical' ? BASE_PREFETCH_RANGE * 2 : BASE_PREFETCH_RANGE`. -/
def prefetchRangeOf : ViewMode → Nat
  | .vertical => BASE_PREFETCH_RANGE * 2
  | .horizontal => BASE_PREFETCH_RANGE

/-- Source `viewMode === 'vertical' ? BASE_CLEANUP_DISTANCE * 2 : BASE_CLEANUP_DISTANCE`. -/
def cleanupDistanceOf : ViewMode → Nat
  | .vertical => BASE_CLEANUP_DISTANCE * 2
  | .horizontal => BASE_CLEANUP_DISTANCE

/-- The order of `loadPage` invocations in one effect run: the current index,
then `currentPageIndex + i` and `currentPageIndex - i` for `i = 1..range`.
JS index arithmetic may go negative, hence `Int`. -/
def passOffsets (c : Int) (range : Nat) : List Int :=
  c :: (List.range' 1 range).flatMap (fun i => [c + (i : Int), c - (i : Int)])

/-- The page indices for which one pass issues a decode: in document bounds
(`index < 0 || index >= file.totalPages` returns early) and not already in the
snapshot of resolved URLs (`if (pageUrls[index]) return`). -/
def requestedPass (totalPages : Nat) (resolvedKeys : List Nat) (c : Int) (m : ViewMode) :
    List Nat :=
  (passOffsets c (prefetchRangeOf m)).filterMap fun idx =>
    if idx < 0 ∨ (totalPages : Int) ≤ idx then none
    else if idx.toNat ∈ resolvedKeys then none
    else some idx.toNat

structure LoaderState where
  resolved : List Nat
  pending : List Nat
  calls : List Nat
deriving DecidableEq, Repr

inductive LoaderEv
  | trigger (c : Int) (m : ViewMode)
  | complete (i : Nat)
  | fail (i : Nat)
deriving DecidableEq, Repr

def loaderInit : LoaderState := ⟨[], [], []⟩

/-- Interleaving semantics of the effect and its asynchronous decodes.
`trigger` runs one scheduling pass (requests from the snapshot, then the
cleanup filter on resolved indices); `complete i` is `setPageUrl(i, url)` for
a decode started earlier; `fail i` drops a failed decode (logged only). -/
def stepLoader (totalPages : Nat) (st : LoaderState) : LoaderEv → LoaderState
  | .trigger c m =>
    let req := requestedPass totalPages st.resolved c m
    { resolved :=
        st.resolved.filter (fun i => decide (((i : Int) - c).natAbs ≤ cleanupDistanceOf m)),
      pending := st.pending ++ req,
      calls := st.calls ++ req }
  | .complete i =>
    if i ∈ st.pending then
      { resolved := if i ∈ st.resolved then st.resolved else st.resolved ++ [i],
        pending := st.pending.erase i,
        calls := st.calls }
    else st
  | .fail i =>
    if i ∈ st.pending then { st with pending := st.pending.erase i } else st

def runLoader (totalPages : Nat) (st : LoaderState) (evs : List LoaderEv) : LoaderState :=
  evs.foldl (stepLoader totalPages) st

theorem passOffsetsTwo (c : Int) : passOffsets c 2 = [c, c + 1, c - 1, c + 2, c - 2] := rfl

theorem passOffsetsFour (c : Int) :
    passOffsets c 4 = [c, c + 1, c - 1, c + 2, c - 2, c + 3, c - 3, c + 4, c - 4] := rfl

def c4Trace : List LoaderEv :=
  [.trigger 10 .horizontal, .complete 10, .complete 11, .complete 9, .complete 12, .complete 8]

/-- C4: on a 100-page document with an empty resolved map, one scheduling pass
at index 10 with the horizontal prefetch range 2 issues decodes exactly for
`[10, 11, 9, 12, 8]`; once those decodes complete, the resolved set is exactly
`{8, ..., 12}`; and in general an index is requested by a horizontal pass iff
it is within distance `prefetchRange = 2` of the active index, inside the
document bounds, and has no resolved handle in the snapshot. -/
theorem c4_prefetch_window :
    (requestedPass 100 [] 10 .horizontal = [10, 11, 9, 12, 8])
    ∧ List.Perm (runLoader 100 loaderInit c4Trace).resolved [8, 9, 10, 11, 12]
    ∧ (runLoader 100 loaderInit c4Trace).pending = []
    ∧ (runLoader 100 loaderInit c4Trace).calls = [10, 11, 9, 12, 8]
    ∧ (∀ (tp : Nat) (res : List Nat) (c : Int) (i : Nat),
        i ∈ requestedPass tp res c .horizontal ↔
          (((i : Int) - c).natAbs ≤ 2 ∧ i < tp ∧ i ∉ res)) := by
  refine ⟨by decide, by decide, by decide, by decide, ?_⟩
  intro tp res c i
  constructor
  · intro hmem
    rcases List.mem_filterMap.1 hmem with ⟨idx, hidx, hf⟩
    by_cases h1 : idx < 0 ∨ (tp : Int) ≤ idx
    · simp [h1] at hf
    · by_cases h2 : idx.toNat ∈ res
      · simp [h1, h2] at hf
      · simp only [if_neg h1, if_neg h2, Option.some.injEq] at hf
        push_neg at h1
        subst hf
        rw [show prefetchRangeOf ViewMode.horizontal = 2 from rfl, passOffsetsTwo c] at hidx
        simp only [List.mem_cons, List.not_mem_nil, or_false] at hidx
        refine ⟨by omega, by omega, h2⟩
  · rintro ⟨habs, hlt, hres⟩
    refine List.mem_filterMap.2 ⟨(i : Int), ?_, ?_⟩
    · rw [show prefetchRangeOf ViewMode.horizontal = 2 from rfl, passOffsetsTwo c]
      simp only [List.mem_cons, List.not_mem_nil, or_false]
      omega
    · rw [if_neg (by omega), if_neg (by simpa using hres)]
      simp

def c6Trace : List LoaderEv :=
  [.trigger 10 .horizontal, .complete 11, .trigger 10 .horizontal]

/-- C6 (counterexample): trigger a pass at index 10 on a 100-page document,
let only page 11 resolve, and trigger again (the effect re-runs whenever
`pageUrls` changes).  Page 10 has not resolved, so the second pass issues a
second decode for it: the decode-call log counts index 10 twice while no
resolution for 10 has happened — there is no in-flight set in the code. -/
theorem c6_no_inflight_counterexample :
    ((runLoader 100 loaderInit c6Trace).calls.count 10 = 2)
    ∧ 10 ∉ (runLoader 100 loaderInit c6Trace).resolved
    ∧ (runLoader 100 loaderInit c6Trace).pending.count 10 = 2 := by
  decide

/-- C6 (amended): deduplication exists only against the resolved snapshot:
within a single scheduling pass no index is requested twice, and an index
that already has a resolved handle in the snapshot is never requested; but an
unresolved index may be requested again by any later pass while its first
decode is still outstanding (see the counterexample). -/
theorem c6_per_pass_dedup (tp : Nat) (res : List Nat) (c : Int) (m : ViewMode) :
    (requestedPass tp res c m).Nodup
    ∧ (∀ i ∈ res, i ∉ requestedPass tp res c m) := by
  constructor
  · have hoff : (passOffsets c (prefetchRangeOf m)).Nodup := by
      cases m
      · rw [show prefetchRangeOf ViewMode.horizontal = 2 from rfl, passOffsetsTwo c]
        simp [List.nodup_cons, List.mem_cons]
        omega
      · rw [show prefetchRangeOf ViewMode.vertical = 4 from rfl, passOffsetsFour c]
        simp [List.nodup_cons, List.mem_cons]
        omega
    refine List.Nodup.filterMap ?_ hoff
    intro a a' b hb hb'
    simp only [Option.mem_def] at hb hb'
    by_cases h1 : a < 0 ∨ (tp : Int) ≤ a
    · simp [h1] at hb
    · by_cases h2 : a.toNat ∈ res
      · simp [h1, h2] at hb
      · simp only [if_neg h1, if_neg h2, Option.some.injEq] at hb
        by_cases h1' : a' < 0 ∨ (tp : Int) ≤ a'
        · simp [h1'] at hb'
        · by_cases h2' : a'.toNat ∈ res
          · simp [h1', h2'] at hb'
          · simp only [if_neg h1', if_neg h2', Option.some.injEq] at hb'
            push_neg at h1 h1'
            omega
  · intro i hi hmem
    rcases List.mem_filterMap.1 hmem with ⟨idx, _, hf⟩
    by_cases h1 : idx < 0 ∨ (tp : Int) ≤ idx
    · simp [h1] at hf
    · by_cases h2 : idx.toNat ∈ res
      · simp [h1, h2] at hf
      · simp only [if_neg h1, if_neg h2, Option.some.injEq] at hf
        exact h2 (hf ▸ hi)

theorem c6_per_pass_dedup_witness :
    (requestedPass 100 [11] 10 ViewMode.horizontal).Nodup
    ∧ (∀ i ∈ [11], i ∉ requestedPass 100 [11] 10 ViewMode.horizontal) :=
  c6_per_pass_dedup 100 [11] 10 ViewMode.horizontal

/-! ### `useStore.ts` — Reading-Position Store

`localStorage` is modelled by the `bookmarks` association list (key
`bookmark_<fileKey>` to the stored string) plus the persisted view mode, and
`URL.revokeObjectURL` by appending the revoked URL to the `revoked` log.  The
zustand record's fields are carried verbatim.  The awaited backend call inside
`loadFile` (`fileLoader.loadFile`) is abstracted by its outcome, passed in as
an `Except` value. -/

def lookupAssoc : List (String × String) → String → Option String
  | [], _ => none
  | kv :: rest, k => if kv.1 = k then some kv.2 else lookupAssoc rest k

def setAssoc : List (String × String) → String → String → List (String × String)
  | [], k, v => [(k, v)]
  | kv :: rest, k, v => if kv.1 = k then (k, v) :: rest else kv :: setAssoc rest k v

def lookupUrl : List (Nat × String) → Nat → Option String
  | [], _ => none
  | kv :: rest, k => if kv.1 = k then some kv.2 else lookupUrl rest k

/-- Source `{ ...state.pageUrls, [index]: url }` — overwrite in place or append. -/
def setUrl : List (Nat × String) → Nat → String → List (Nat × String)
  | [], k, v => [(k, v)]
  | kv :: rest, k, v => if kv.1 = k then (k, v) :: rest else kv :: setUrl rest k v

/-- Source `delete newUrls[pageIdx]` — drops the (unique) binding of the key. -/
def removeUrlKey : List (Nat × String) → Nat → List (Nat × String)
  | [], _ => []
  | kv :: rest, k => if kv.1 = k then rest else kv :: removeUrlKey rest k

structure StoreState where
  file : Option MangaFile
  currentPageIndex : Nat
  isLoading : Bool
  error : Option String
  pageUrls : List (Nat × String)
  downloadProgress : Int
  currentFileId : Option String
  viewMode : ViewMode
  bookmarks : List (String × String)
  revoked : List String
deriving DecidableEq, Repr

def emptyStore : StoreState :=
  { file := none, currentPageIndex := 0, isLoading := false, error := none,
    pageUrls := [], downloadProgress := -1, currentFileId := none,
    viewMode := ViewMode.horizontal, bookmarks := [], revoked := [] }

/-- Source `setPageUrl(index, url)` — unconditional overwrite of the map binding; the
source revokes nothing here. -/
def setPageUrl (st : StoreState) (index : Nat) (url : String) : StoreState :=
  { st with pageUrls := setUrl st.pageUrls index url }

/-- The loop body of `cleanupOldPages` run over the snapshot of keys: far
pages are revoked and deleted from the copy. -/
def cleanupUrls (urls : List (Nat × String)) (c : Int) (d : Nat) :
    List (Nat × String) × List String :=
  urls.foldl
    (fun acc kv =>
      if ((kv.1 : Int) - c).natAbs > d
      then (removeUrlKey acc.1 kv.1, acc.2 ++ [kv.2])
      else acc)
    (urls, [])

/-- Source `cleanupOldPages(currentIndex, distance)`: for every key of `pageUrls`
with `Math.abs(pageIdx - currentIndex) > distance`, revoke the URL and delete
the binding. -/
def cleanupOldPages (st : StoreState) (currentIndex : Int) (distance : Nat) : StoreState :=
  { st with
    pageUrls := (cleanupUrls st.pageUrls currentIndex distance).1,
    revoked := st.revoked ++ (cleanupUrls st.pageUrls currentIndex distance).2 }

/-- Source `currentFileId || file.fileName` (JS falsy: null and the empty string fall
through to the file name). -/
def fileKeyOf (currentFileId : Option String) (fileName : String) : String :=
  match currentFileId with
  | some id => if id = "" then fileName else id
  | none => fileName

/-- Decimal digits of `n`, least fuel `n + 1`; models `Number.prototype.toString`
for the non-negative integers the store writes. -/
def natToCharsFuel : Nat → Nat → List Char
  | 0, _ => []
  | fuel + 1, n =>
    if n < 10 then [Nat.digitChar n]
    else natToCharsFuel fuel (n / 10) ++ [Nat.digitChar (n % 10)]

def natToString (n : Nat) : String := ⟨natToCharsFuel (n + 1) n⟩

def digitVal (c : Char) : Nat := c.toNat - 48

def parseDigits (cs : List Char) : Option Nat :=
  let ds := cs.takeWhile (fun c => c.isDigit)
  if ds.isEmpty then none else some (ds.foldl (fun a c => a * 10 + digitVal c) 0)

def parseIntChars : List Char → Option Int
  | [] => none
  | c :: rest =>
    if c = '-' then (parseDigits rest).map (fun v => -(v : Int))
    else if c = '+' then (parseDigits rest).map (fun v => (v : Int))
    else (parseDigits (c :: rest)).map (fun v => (v : Int))

/-- Source `parseInt(s, 10)`: skip leading whitespace, optional sign, then the
longest digit run; `none` models `NaN`. -/
def parseIntJS (s : String) : Option Int :=
  parseIntChars
    (s.toList.dropWhile (fun c => c == ' ' || c == '\t' || c == '\n' || c == '\r'))

/-- Source `setPage(index)`: no-op without a file; clamp to `[0, totalPages - 1]`;
persist the clamped index under `bookmark_<fileKey>` when the key is truthy. -/
def setPage (st : StoreState) (index : Int) : StoreState :=
  match st.file with
  | none => st
  | some file =>
    let newIndex : Int := max 0 (min index ((file.totalPages : Int) - 1))
    let st1 := { st with currentPageIndex := newIndex.toNat }
    let fileKey := fileKeyOf st.currentFileId file.fileName
    if fileKey = "" then st1
    else
      { st1 with
        bookmarks :=
          setAssoc st1.bookmarks (("bookmark_") ++ fileKey) (natToString newIndex.toNat) }

/-- Source `closeFile()`: revoke all page URLs, unload the backend, reset session
state (bookmarks and view mode persist in `localStorage`). -/
def closeFile (st : StoreState) : StoreState :=
  { st with
    revoked := st.revoked ++ st.pageUrls.map (fun kv => kv.2),
    file := none, currentPageIndex := 0, error := none, pageUrls := [],
    downloadProgress := -1, currentFileId := none }

/-- The parsed-bookmark guard of `loadFile`:
`if (!isNaN(parsed) && parsed >= 0 && parsed < mangaFile.totalPages)
savedIndex = parsed` (with `savedIndex = 0` otherwise). -/
def bookmarkParsed (mf : MangaFile) : Option Int → Nat
  | none => 0
  | some parsed => if 0 ≤ parsed ∧ parsed < (mf.totalPages : Int) then parsed.toNat else 0

/-- The `const stored = localStorage.getItem(...); if (stored) {...}` block of
`loadFile` (`getItem` misses and the empty string are both falsy). -/
def bookmarkIndex (mf : MangaFile) : Option String → Nat
  | none => 0
  | some stored => if stored = ("") then 0 else bookmarkParsed mf (parseIntJS stored)

/-- The bookmark-restore computation of `loadFile`: key
`bookmark_<currentFileId || fileName>`, zero when the key is falsy. -/
def restoreIndex (bookmarks : List (String × String)) (currentFileId : Option String)
    (mf : MangaFile) : Nat :=
  let fileKey := fileKeyOf currentFileId mf.fileName
  if fileKey = ("") then 0
  else bookmarkIndex mf (lookupAssoc bookmarks (("bookmark_") ++ fileKey))

/-- Source `loadFile(file, fileName?)`: revoke all current page URLs and reset the
map, mark loading; then, on backend success, restore a bookmarked index that
parses and is in bounds (else 0) and record the document; on backend failure,
record the error message (`(err as Error).message || 'Failed to load file'`)
and stop loading — the `file` field is untouched by the failure branch. -/
def loadFile (st : StoreState) (result : Except String MangaFile) : StoreState :=
  let st1 : StoreState :=
    { st with
      revoked := st.revoked ++ st.pageUrls.map (fun kv => kv.2),
      isLoading := true, error := none, pageUrls := ([] : List (Nat × String)) }
  match result with
  | .ok mangaFile =>
    { st1 with
      file := some mangaFile,
      currentPageIndex := restoreIndex st1.bookmarks st1.currentFileId mangaFile,
      isLoading := false }
  | .error msg =>
    { st1 with
      isLoading := false,
      error := some (if msg = "" then ("Failed to load file") else msg) }

theorem digitChar_isDigit (d : Nat) (h : d < 10) : (Nat.digitChar d).isDigit = true := by
  interval_cases d <;> decide

theorem digitVal_digitChar (d : Nat) (h : d < 10) : digitVal (Nat.digitChar d) = d := by
  interval_cases d <;> decide

theorem natToCharsFuel_digits :
    ∀ (fuel n : Nat), n < fuel → ∀ c ∈ natToCharsFuel fuel n, c.isDigit = true := by
  intro fuel
  induction fuel with
  | zero => intro n h; exact absurd h (by omega)
  | succ fuel ih =>
    intro n hn c hc
    by_cases h10 : n < 10
    · simp only [natToCharsFuel, if_pos h10, List.mem_cons, List.not_mem_nil, or_false] at hc
      subst hc
      exact digitChar_isDigit n h10
    · simp only [natToCharsFuel, if_neg h10, List.mem_append, List.mem_cons,
        List.not_mem_nil, or_false] at hc
      rcases hc with hc | hc
      · have hdivlt : n / 10 < fuel := by
          have h1 : n / 10 < n := Nat.div_lt_self (by omega) (by omega)
          omega
        exact ih (n / 10) hdivlt c hc
      · subst hc
        exact digitChar_isDigit (n % 10) (Nat.mod_lt n (by omega))

theorem natToCharsFuel_ne_nil (fuel n : Nat) (h : n < fuel) : natToCharsFuel fuel n ≠ [] := by
  cases fuel with
  | zero => exact absurd h (by omega)
  | succ fuel =>
    by_cases h10 : n < 10
    · simp [natToCharsFuel, h10]
    · simp [natToCharsFuel, h10]

theorem natToCharsFuel_foldl :
    ∀ (fuel n : Nat), n < fuel → ∀ acc : Nat,
      (natToCharsFuel fuel n).foldl (fun a c => a * 10 + digitVal c) acc
        = acc * 10 ^ (natToCharsFuel fuel n).length + n := by
  intro fuel
  induction fuel with
  | zero => intro n h; exact absurd h (by omega)
  | succ fuel ih =>
    intro n hn acc
    by_cases h10 : n < 10
    · simp only [natToCharsFuel, if_pos h10, List.foldl_cons, List.foldl_nil,
        List.length_cons, List.length_nil]
      rw [digitVal_digitChar n h10]
      norm_num
    · have hdivlt : n / 10 < fuel := by
        have h1 : n / 10 < n := Nat.div_lt_self (by omega) (by omega)
        omega
      simp only [natToCharsFuel, if_neg h10, List.foldl_append, List.foldl_cons,
        List.foldl_nil, List.length_append, List.length_cons, List.length_nil]
      rw [ih (n / 10) hdivlt acc, digitVal_digitChar (n % 10) (Nat.mod_lt n (by omega))]
      have hmod : 10 * (n / 10) + n % 10 = n := Nat.div_add_mod n 10
      set L := (natToCharsFuel fuel (n / 10)).length with hL
      calc (acc * 10 ^ L + n / 10) * 10 + n % 10
          = acc * (10 ^ L * 10) + (10 * (n / 10) + n % 10) := by ring
        _ = acc * 10 ^ (L + (0 + 1)) + n := by rw [hmod, pow_succ]

theorem takeWhile_all (p : Char → Bool) :
    ∀ l : List Char, (∀ c ∈ l, p c = true) → l.takeWhile p = l := by
  intro l
  induction l with
  | nil => intro _; simp
  | cons c rest ih =>
    intro hall
    rw [List.takeWhile_cons, hall c (List.mem_cons_self c rest)]
    simp only [if_true]
    rw [ih (fun x hx => hall x (List.mem_cons.2 (Or.inr hx)))]

theorem parseDigits_all (l : List Char) (hne : l ≠ [])
    (hall : ∀ c ∈ l, c.isDigit = true) :
    parseDigits l = some (l.foldl (fun a c => a * 10 + digitVal c) 0) := by
  unfold parseDigits
  rw [takeWhile_all _ l hall]
  rw [if_neg (by simpa [List.isEmpty_iff] using hne)]

theorem parseIntChars_cons (c : Char) (rest : List Char) :
    parseIntChars (c :: rest) =
      if c = '-' then (parseDigits rest).map (fun v => -(v : Int))
      else if c = '+' then (parseDigits rest).map (fun v => (v : Int))
      else (parseDigits (c :: rest)).map (fun v => (v : Int)) := rfl

theorem isDigit_not_space (c : Char) (h : c.isDigit = true) :
    (c == ' ' || c == '\t' || c == '\n' || c == '\r') = false := by
  cases hco : (c == ' ' || c == '\t' || c == '\n' || c == '\r') with
  | false => rfl
  | true =>
    exfalso
    simp only [Bool.or_eq_true, beq_iff_eq] at hco
    rcases hco with ((rfl | rfl) | rfl) | rfl <;> exact absurd h (by decide)

theorem isDigit_ne_dash (c : Char) (h : c.isDigit = true) : ¬ c = '-' :=
  fun he => absurd (he ▸ h) (by decide)

theorem isDigit_ne_plus (c : Char) (h : c.isDigit = true) : ¬ c = '+' :=
  fun he => absurd (he ▸ h) (by decide)

theorem parseIntJS_natToString (m : Nat) : parseIntJS (natToString m) = some (m : Int) := by
  have hne := natToCharsFuel_ne_nil (m + 1) m (by omega)
  have hall := natToCharsFuel_digits (m + 1) m (by omega)
  obtain ⟨c, rest, hcons⟩ := List.exists_cons_of_ne_nil hne
  have hlist : (natToString m).toList = natToCharsFuel (m + 1) m := rfl
  have hc : c.isDigit = true := hall c (by rw [hcons]; exact List.mem_cons_self c rest)
  unfold parseIntJS
  rw [hlist, hcons, List.dropWhile_cons, isDigit_not_space c hc]
  simp only [Bool.false_eq_true, if_false]
  rw [parseIntChars_cons, if_neg (isDigit_ne_dash c hc), if_neg (isDigit_ne_plus c hc)]
  rw [← hcons, parseDigits_all _ hne hall, natToCharsFuel_foldl (m + 1) m (by omega) 0]
  simp

theorem natToString_ne_empty (m : Nat) : natToString m ≠ ("") := by
  intro h
  have h2 : natToCharsFuel (m + 1) m = [] := by
    have := congrArg String.toList h
    simpa using this
  exact natToCharsFuel_ne_nil (m + 1) m (by omega) h2

theorem lookupAssoc_setAssoc_self :
    ∀ (l : List (String × String)) (k v : String),
      lookupAssoc (setAssoc l k v) k = some v := by
  intro l k v
  induction l with
  | nil => simp [setAssoc, lookupAssoc]
  | cons kv rest ih =>
    by_cases h : kv.1 = k
    · simp [setAssoc, lookupAssoc, h]
    · simp [setAssoc, lookupAssoc, h, ih]

theorem lookupUrl_setUrl_self :
    ∀ (l : List (Nat × String)) (k : Nat) (v : String),
      lookupUrl (setUrl l k v) k = some v := by
  intro l k v
  induction l with
  | nil => simp [setUrl, lookupUrl]
  | cons kv rest ih =>
    by_cases h : kv.1 = k
    · simp [setUrl, lookupUrl, h]
    · simp [setUrl, lookupUrl, h, ih]

theorem lookupUrl_setUrl_ne :
    ∀ (l : List (Nat × String)) (k k' : Nat) (v : String), k' ≠ k →
      lookupUrl (setUrl l k v) k' = lookupUrl l k' := by
  intro l k k' v hne
  have hkk : ¬ k = k' := fun he => hne he.symm
  induction l with
  | nil => simp [setUrl, lookupUrl, hkk]
  | cons kv rest ih =>
    by_cases h : kv.1 = k
    · have hkv : ¬ kv.1 = k' := by rw [h]; exact hkk
      simp [setUrl, lookupUrl, h, hkv, hkk]
    · by_cases h2 : kv.1 = k'
      · simp only [setUrl, if_neg h, lookupUrl, if_pos h2]
      · simp only [setUrl, if_neg h, lookupUrl, if_neg h2, ih]

theorem removeUrlKey_append_not_mem :
    ∀ (done : List (Nat × String)) (kv : Nat × String) (rest : List (Nat × String)),
      kv.1 ∉ done.map Prod.fst →
      removeUrlKey (done ++ kv :: rest) kv.1 = done ++ rest := by
  intro done
  induction done with
  | nil =>
    intro kv rest _
    simp [removeUrlKey]
  | cons g done' ih =>
    intro kv rest hnot
    have hg : ¬ g.1 = kv.1 := by
      intro h
      exact hnot (by simp [h.symm])
    simp only [List.cons_append, removeUrlKey, if_neg hg, List.append_eq]
    rw [ih kv rest (by intro h; exact hnot (by simp [h]))]

theorem cleanupFold :
    ∀ (todo done : List (Nat × String)) (rev : List String) (c : Int) (d : Nat),
      ((done ++ todo).map Prod.fst).Nodup →
      todo.foldl
        (fun acc kv =>
          if ((kv.1 : Int) - c).natAbs > d
          then (removeUrlKey acc.1 kv.1, acc.2 ++ [kv.2])
          else acc)
        (done ++ todo, rev)
      = (done ++ todo.filter (fun kv => decide (((kv.1 : Int) - c).natAbs ≤ d)),
         rev ++ (todo.filter (fun kv => decide (d < ((kv.1 : Int) - c).natAbs))).map Prod.snd) := by
  intro todo
  induction todo with
  | nil =>
    intro done rev c d _
    simp
  | cons kv todo' ih =>
    intro done rev c d hnd
    by_cases hfar : ((kv.1 : Int) - c).natAbs > d
    · have hkv_done : kv.1 ∉ done.map Prod.fst := by
        intro hmem
        rw [List.map_append] at hnd
        rcases List.nodup_append.1 hnd with ⟨_, _, hdisj⟩
        exact hdisj hmem (by simp)
      have hnd' : ((done ++ todo').map Prod.fst).Nodup := by
        refine hnd.sublist (List.Sublist.map Prod.fst ?_)
        exact (List.Sublist.refl done).append (List.sublist_cons_self kv todo')
      simp only [List.foldl_cons, if_pos hfar]
      rw [removeUrlKey_append_not_mem done kv todo' hkv_done]
      rw [ih done (rev ++ [kv.2]) c d hnd']
      have hnear : ¬ ((kv.1 : Int) - c).natAbs ≤ d := by omega
      simp only [List.filter_cons, decide_eq_true_eq, hnear, if_false, hfar, if_true,
        List.map_cons, List.append_assoc, List.singleton_append, decide_True, decide_False,
        Bool.false_eq_true]
    · have heq : done ++ kv :: todo' = (done ++ [kv]) ++ todo' := by simp
      simp only [List.foldl_cons, if_neg hfar]
      rw [heq, ih (done ++ [kv]) rev c d (by rw [← heq]; exact hnd)]
      have hnear : ((kv.1 : Int) - c).natAbs ≤ d := by omega
      have hnfar : ¬ d < ((kv.1 : Int) - c).natAbs := by omega
      simp only [List.filter_cons, decide_eq_true_eq, hnear, if_true, hnfar, if_false,
        List.append_assoc, List.singleton_append, decide_True, decide_False, List.map_cons,
        Bool.false_eq_true]

theorem cleanupUrls_eq (urls : List (Nat × String)) (c : Int) (d : Nat)
    (h : (urls.map Prod.fst).Nodup) :
    cleanupUrls urls c d
      = (urls.filter (fun kv => decide (((kv.1 : Int) - c).natAbs ≤ d)),
         (urls.filter (fun kv => decide (d < ((kv.1 : Int) - c).natAbs))).map Prod.snd) := by
  have hfold := cleanupFold urls [] [] c d (by simpa using h)
  simpa [cleanupUrls] using hfold

/-- C5: `cleanupOldPages(centerIndex, distance)` removes from the resolved map
exactly the bindings whose key is farther than `distance` from the center —
revoking each removed URL, in order — and keeps every other binding unchanged
and unrevoked. -/
theorem c5_cleanup_exact (st : StoreState) (c : Int) (d : Nat)
    (h : (st.pageUrls.map Prod.fst).Nodup) :
    (cleanupOldPages st c d).pageUrls
        = st.pageUrls.filter (fun kv => decide (((kv.1 : Int) - c).natAbs ≤ d))
    ∧ (cleanupOldPages st c d).revoked
        = st.revoked
          ++ (st.pageUrls.filter (fun kv => decide (d < ((kv.1 : Int) - c).natAbs))).map Prod.snd
    ∧ (∀ kv : Nat × String,
        kv ∈ (cleanupOldPages st c d).pageUrls ↔
          (kv ∈ st.pageUrls ∧ ((kv.1 : Int) - c).natAbs ≤ d)) := by
  have heq := cleanupUrls_eq st.pageUrls c d h
  refine ⟨?_, ?_, ?_⟩
  · show (cleanupUrls st.pageUrls c d).1 = _
    rw [heq]
  · show st.revoked ++ (cleanupUrls st.pageUrls c d).2 = _
    rw [heq]
  · intro kv
    show kv ∈ (cleanupUrls st.pageUrls c d).1 ↔ _
    rw [heq]
    simp [List.mem_filter]

def c5Urls : List (Nat × String) := (List.range 21).map (fun i => (i, natToString i))

def c5State : StoreState := { emptyStore with pageUrls := c5Urls }

theorem c5_cleanup_exact_witness :
    ((c5Urls.map Prod.fst).Nodup)
    ∧ (cleanupOldPages c5State 10 5).pageUrls.map Prod.fst
        = [5, 6, 7, 8, 9, 10, 11, 12, 13, 14, 15]
    ∧ (cleanupOldPages c5State 10 5).revoked.length = 10 := by
  refine ⟨by decide, ?_, ?_⟩
  · have h := c5_cleanup_exact c5State 10 5 (by decide)
    rw [h.1]
    decide
  · have h := c5_cleanup_exact c5State 10 5 (by decide)
    rw [h.2.1]
    decide

def c7Pair : StoreState := setPageUrl (setPageUrl emptyStore 0 ("a")) 0 ("b")

/-- C7 (counterexample): recording a second handle for index 0 is not a no-op:
the binding changes from `"a"` to `"b"`, the replaced handle `"a"` is gone from
the map, and nothing was revoked — so a handle left the map without being
revoked at that moment. -/
theorem c7_overwrite_counterexample :
    (setPageUrl emptyStore 0 ("a")).pageUrls = [(0, ("a"))]
    ∧ c7Pair.pageUrls = [(0, ("b"))]
    ∧ (0, ("a")) ∉ c7Pair.pageUrls
    ∧ c7Pair.revoked = [] := by
  decide

/-- C7 (amended): `setPageUrl` records the URL under the index
unconditionally, overwriting any previous binding rather than being a no-op,
and revokes nothing — so an overwritten handle leaves the map unrevoked;
bindings of other indices are untouched; handles are revoked when removed by
`closeFile` (shown here; `cleanupOldPages` revokes what it removes, see the
cleanup theorem). -/
theorem c7_record_overwrites (st : StoreState) (i : Nat) (u : String) :
    lookupUrl (setPageUrl st i u).pageUrls i = some u
    ∧ (∀ j : Nat, j ≠ i → lookupUrl (setPageUrl st i u).pageUrls j = lookupUrl st.pageUrls j)
    ∧ (setPageUrl st i u).revoked = st.revoked
    ∧ (closeFile st).pageUrls = []
    ∧ (closeFile st).revoked = st.revoked ++ st.pageUrls.map (fun kv => kv.2) := by
  refine ⟨lookupUrl_setUrl_self st.pageUrls i u, ?_, rfl, rfl, rfl⟩
  intro j hj
  exact lookupUrl_setUrl_ne st.pageUrls i j u hj

theorem c7_record_overwrites_witness :
    lookupUrl (setPageUrl emptyStore 0 ("a")).pageUrls 0 = some ("a")
    ∧ lookupUrl (setPageUrl emptyStore 0 ("a")).pageUrls 1 = lookupUrl emptyStore.pageUrls 1
    ∧ (setPageUrl emptyStore 0 ("a")).revoked = emptyStore.revoked :=
  ⟨(c7_record_overwrites emptyStore 0 ("a")).1,
    (c7_record_overwrites emptyStore 0 ("a")).2.1 1 (by decide),
    (c7_record_overwrites emptyStore 0 ("a")).2.2.1⟩

def c8File : MangaFile := ⟨("doc"), 3, [("p1"), ("p2"), ("p3")]⟩

def c8Before : StoreState := { emptyStore with file := some c8File }

/-- C8 (counterexample): a failing open records the error message, but when a
document was active before the call, that document is still active afterwards
— the failure branch never clears the `file` field. -/
theorem c8_error_keeps_document_counterexample :
    (loadFile c8Before (Except.error ("boom"))).error = some ("boom")
    ∧ (loadFile c8Before (Except.error ("boom"))).file = some c8File := by
  decide

/-- C8 (amended): a failing open records a human-readable error message and
stops loading, and it leaves the `file` field exactly as it was — hence no
document is active afterwards if and only if none was active before the
call. -/
theorem c8_error_state (st : StoreState) (msg : String) :
    (loadFile st (Except.error msg)).error
        = some (if msg = ("") then ("Failed to load file") else msg)
    ∧ (loadFile st (Except.error msg)).isLoading = false
    ∧ (loadFile st (Except.error msg)).file = st.file
    ∧ (loadFile st (Except.error msg)).pageUrls = []
    ∧ ((loadFile st (Except.error msg)).file = none ↔ st.file = none) :=
  ⟨rfl, rfl, rfl, rfl, Iff.rfl⟩

def c10File : MangaFile := ⟨("old"), 2, [("a"), ("b")]⟩

def c10Before : StoreState :=
  { emptyStore with
    file := some c10File, pageUrls := [(0, ("u0")), (1, ("u1"))], revoked := [("z")] }

/-- C10: `loadFile` unconditionally revokes every currently recorded page URL
and resets the resolved map to empty before the backend outcome is examined;
on failure the previous document's handles are therefore gone while the
previous `file` record itself is untouched. -/
theorem c10_loadFile_frame (st : StoreState) (r : Except String MangaFile) :
    (loadFile st r).revoked = st.revoked ++ st.pageUrls.map (fun kv => kv.2)
    ∧ (loadFile st r).pageUrls = []
    ∧ (∀ msg, r = Except.error msg → (loadFile st r).file = st.file) := by
  cases r with
  | ok mf => exact ⟨rfl, rfl, fun msg h => by cases h⟩
  | error msg => exact ⟨rfl, rfl, fun _ _ => rfl⟩

theorem c10_loadFile_frame_witness :
    (loadFile c10Before (Except.error ("nope"))).revoked = [("z"), ("u0"), ("u1")]
    ∧ (loadFile c10Before (Except.error ("nope"))).pageUrls = []
    ∧ (loadFile c10Before (Except.error ("nope"))).file = some c10File := by
  have h := c10_loadFile_frame c10Before (Except.error ("nope"))
  refine ⟨?_, h.2.1, h.2.2 ("nope") rfl⟩
  rw [h.1]
  decide

theorem loadFile_ok_proj (st : StoreState) (mf : MangaFile) :
    (loadFile st (Except.ok mf)).currentPageIndex
        = restoreIndex st.bookmarks st.currentFileId mf
    ∧ (loadFile st (Except.ok mf)).file = some mf :=
  ⟨rfl, rfl⟩

def c9File : MangaFile := ⟨("k"), 10, (List.range 10).map natToString⟩

def c9Start : StoreState := { emptyStore with file := some c9File }

/-- C9 (counterexample): on a 10-page document under key `k`,
`setActivePage(42)` clamps and persists index 9 (= totalPages − 1); closing
and reopening the same document restores index 9, not the index 0 the claim
predicts for the out-of-bounds case `42 ≥ totalPages`. -/
theorem c9_roundtrip_counterexample :
    c9File.totalPages ≤ 42
    ∧ (loadFile (closeFile (setPage c9Start 42)) (Except.ok c9File)).currentPageIndex = 9
    ∧ ¬ (loadFile (closeFile (setPage c9Start 42)) (Except.ok c9File)).currentPageIndex = 0 := by
  decide

/-- C9 (amended): `setActivePage(i)` persists the clamped index
`max 0 (min i (totalPages − 1))`; closing and reopening the same document
under the same stable key restores exactly that clamped index — which equals
`i` whenever `0 ≤ i < totalPages`, and `totalPages − 1` (not 0) when
`i ≥ totalPages ≥ 1`.  A stored bookmark that does not parse as a number, or
parses to an out-of-bounds index, yields index 0 on open. -/
theorem c9_bookmark_roundtrip (st : StoreState) (mf : MangaFile) (n : Int)
    (hfile : st.file = some mf)
    (hid : st.currentFileId = none)
    (hname : ¬ mf.fileName = ("")) :
    ((loadFile (closeFile (setPage st n)) (Except.ok mf)).currentPageIndex
        = (max 0 (min n ((mf.totalPages : Int) - 1))).toNat
      ∧ (loadFile (closeFile (setPage st n)) (Except.ok mf)).file = some mf)
    ∧ (∀ s : String,
        lookupAssoc st.bookmarks (("bookmark_") ++ mf.fileName) = some s →
        ¬ s = ("") →
        parseIntJS s = none →
        (loadFile st (Except.ok mf)).currentPageIndex = 0)
    ∧ (∀ (s : String) (v : Int),
        lookupAssoc st.bookmarks (("bookmark_") ++ mf.fileName) = some s →
        parseIntJS s = some v →
        ¬ (0 ≤ v ∧ v < (mf.totalPages : Int)) →
        (loadFile st (Except.ok mf)).currentPageIndex = 0) := by
  have hs1 : setPage st n =
      { st with
        currentPageIndex := (max 0 (min n ((mf.totalPages : Int) - 1))).toNat,
        bookmarks := setAssoc st.bookmarks (("bookmark_") ++ mf.fileName)
          (natToString (max 0 (min n ((mf.totalPages : Int) - 1))).toNat) } := by
    simp only [setPage, hfile, hid, fileKeyOf, if_neg hname]
  refine ⟨⟨?_, (loadFile_ok_proj _ mf).2⟩, ?_, ?_⟩
  · rw [(loadFile_ok_proj _ mf).1]
    have h2bm : (closeFile (setPage st n)).bookmarks = (setPage st n).bookmarks := rfl
    have h2id : (closeFile (setPage st n)).currentFileId = none := rfl
    rw [h2bm, h2id, hs1]
    simp only [restoreIndex, fileKeyOf]
    rw [if_neg hname, lookupAssoc_setAssoc_self, bookmarkIndex,
      if_neg (natToString_ne_empty _), parseIntJS_natToString, bookmarkParsed]
    set M := max 0 (min n ((mf.totalPages : Int) - 1)) with hMdef
    have hM0 : (0 : Int) ≤ M := le_max_left 0 _
    have hmM : ((M.toNat : Nat) : Int) = M := Int.toNat_of_nonneg hM0
    by_cases hc : 0 ≤ ((M.toNat : Nat) : Int) ∧ ((M.toNat : Nat) : Int) < (mf.totalPages : Int)
    · rw [if_pos hc]
      omega
    · rw [if_neg hc]
      omega
  · intro s hs hsne hparse
    rw [(loadFile_ok_proj _ mf).1, hid]
    simp only [restoreIndex, fileKeyOf]
    rw [if_neg hname, hs, bookmarkIndex, if_neg hsne, hparse, bookmarkParsed]
  · intro s v hs hparse hcond
    rw [(loadFile_ok_proj _ mf).1, hid]
    simp only [restoreIndex, fileKeyOf]
    by_cases hsne : s = ("")
    · rw [if_neg hname, hs, bookmarkIndex, if_pos hsne]
    · rw [if_neg hname, hs, bookmarkIndex, if_neg hsne, hparse, bookmarkParsed, if_neg hcond]

theorem c9_bookmark_roundtrip_witness :
    (loadFile (closeFile (setPage c9Start 3)) (Except.ok c9File)).currentPageIndex = 3
    ∧ (loadFile (closeFile (setPage c9Start 3)) (Except.ok c9File)).file = some c9File := by
  have h := (c9_bookmark_roundtrip c9Start c9File 3 rfl rfl (by decide)).1
  refine ⟨?_, h.2⟩
  rw [h.1]
  decide

end MangaViewer
